import Mathlib

/-!
Verification of the tabular view engine of `AISearchViewerLite.py`:
shallow embedding of its pure data transformations (sheet loading,
filtering, sorting, query normalization, search-URL building, engine
registry loading, selected-cell access) and proofs of the specified
properties.

Strings are modelled by Lean `String`/`List Char`; Python's arbitrary
precision integers by `Int`/`Nat`.
-/

namespace AISearchViewerLite

/-- A row of the grid: one display string per column
(`rows_all` / `rows_view` elements in the source). -/
abbrev Row := List String

/-! ### Whitespace and `normalize_query` (source lines 63-69) -/

/-- Model of the whitespace class used by Python's `re` `\s` and `str.strip`
on `str` values: ASCII whitespace together with the Unicode space
characters. -/
def isPySpace (c : Char) : Bool :=
  c = ' ' || c = '\t' || c = '\n' || c = '\x0b' || c = '\x0c' || c = '\r' ||
  c = '\x1c' || c = '\x1d' || c = '\x1e' || c = '\x1f' || c = '\x85' ||
  c = '\xa0' || c = '\u1680' ||
  c = '\u2000' || c = '\u2001' || c = '\u2002' || c = '\u2003' ||
  c = '\u2004' || c = '\u2005' || c = '\u2006' || c = '\u2007' ||
  c = '\u2008' || c = '\u2009' || c = '\u200a' ||
  c = '\u2028' || c = '\u2029' || c = '\u202f' || c = '\u205f' || c = '\u3000'

/-- The per-character effect of the three `replace` calls in
`normalize_query`: CR, LF and the full-width space U+3000 become an
ordinary space. -/
def replWS (c : Char) : Char :=
  if c = '\r' || c = '\n' || c = '\u3000' then ' ' else c

/-- Model of `re.sub(r"\s+", " ", s)`: every maximal run of whitespace is
replaced by a single space.  The flag records whether the previously
emitted character position was inside a whitespace run. -/
def pySubAux (prevWS : Bool) : List Char → List Char
  | [] => []
  | c :: cs =>
    if isPySpace c then
      if prevWS then pySubAux true cs else ' ' :: pySubAux true cs
    else
      c :: pySubAux false cs

/-- `re.sub(r"\s+", " ", s)`. -/
def pySub (l : List Char) : List Char := pySubAux false l

/-- Model of Python `str.strip()`: drop leading and trailing whitespace. -/
def pyStrip (l : List Char) : List Char :=
  (((l.dropWhile isPySpace).reverse).dropWhile isPySpace).reverse

/-- `normalize_query` from the source: early-return on the empty string,
replace CR/LF/full-width space by a space, collapse whitespace runs, and
strip the ends. -/
def normalize_query (s : String) : String :=
  if s = "" then "" else
  String.mk (pyStrip (pySub (s.data.map replWS)))

/-! ### Lower-casing (models Python `str.lower` on the ASCII range) -/

/-- Character-wise lower-casing of a character list, via `Char.toLower`
(ASCII `A`-`Z` are shifted; this models Python `str.lower`, which on the
data appearing in the claims is the ASCII mapping). -/
def lowerL (l : List Char) : List Char := l.map Char.toLower

/-- `str.lower` on strings. -/
def lowerStr (s : String) : String := String.mk (lowerL s.data)

/-! ### Decimal rendering of row numbers (Python `str(i)`) -/

/-- Big-endian decimal digits of `n`, fuel-based so that it is structural;
the fuel is always instantiated with `n` itself, which suffices. -/
def pyStrAux : Nat → Nat → List Char
  | 0, _ => []
  | _ + 1, 0 => []
  | fuel + 1, n + 1 =>
    pyStrAux fuel ((n + 1) / 10) ++ [Char.ofNat (48 + (n + 1) % 10)]

/-- Model of Python `str(n)` for a natural number `n` (decimal notation). -/
def pyStr (n : Nat) : String :=
  if n = 0 then "0" else String.mk (pyStrAux n n)

/-- Decimal read-back of a digit list, used to prove `pyStr` injective. -/
def strVal (l : List Char) : Nat :=
  l.foldl (fun acc c => acc * 10 + (c.toNat - 48)) 0

/-- Decimal value of an all-digit, non-empty character list; `none`
otherwise. -/
def decDigits? (l : List Char) : Option Nat :=
  if l.isEmpty then none
  else if l.all (fun c => '0' ≤ c && c ≤ '9') then
    some (l.foldl (fun n c => n * 10 + (c.toNat - 48)) 0)
  else none

/-- Model of Python `int(s)` with the source's `except: return 0`
fallback: surrounding whitespace is tolerated, an optional sign precedes
the digits, and a missing or unparsable number yields 0.  (Python also
accepts digit-group underscores; those inputs never arise from the
row-number column.) -/
def parsePyInt (s : String) : Int :=
  match pyStrip s.data with
  | '-' :: rest => ((decDigits? rest).map (fun n => -(n : Int))).getD 0
  | '+' :: rest => ((decDigits? rest).map (fun n => (n : Int))).getD 0
  | t => ((decDigits? t).map (fun n => (n : Int))).getD 0

/-! ### Sheet loading (source `load_sheet`, lines 323-356) -/

/-- `col_empty(ci)` from `load_sheet`: column `ci` holds no non-empty
value in any row (absent cells count as empty). -/
def col_empty (values : List Row) (ci : Nat) : Bool :=
  values.all (fun r => r.getD ci "" == "")

/-- The maximum column count across the raw rows (`ws.max_column`; every
row produced by `iter_rows` has exactly this many cells). -/
def maxCols (values : List Row) : Nat :=
  values.foldr (fun r m => max r.length m) 0

/-- The `while last_col > 0 and col_empty(last_col - 1): last_col -= 1`
loop, starting from the given column count. -/
def trimLoop (values : List Row) : Nat → Nat
  | 0 => 0
  | n + 1 => if col_empty values n then trimLoop values n else n + 1

/-- Number of columns kept after trimming trailing all-empty columns. -/
def lastCol (values : List Row) : Nat :=
  trimLoop values (maxCols values)

/-- `openpyxl.utils.get_column_letter`, fuel-based bijective base-26:
`1 ↦ "A"`, …, `26 ↦ "Z"`, `27 ↦ "AA"`.  The fuel is instantiated with
the index itself, which suffices. -/
def colLetterAux : Nat → Nat → List Char
  | 0, _ => []
  | _ + 1, 0 => []
  | fuel + 1, n + 1 =>
    colLetterAux fuel (n / 26) ++ [Char.ofNat (65 + n % 26)]

/-- Spreadsheet letter label of 1-based column index `n`. -/
def colLetter (n : Nat) : String := String.mk (colLetterAux n n)

/-- The headers built by `load_sheet`: the literal `"#"` row-number label
followed by the letter labels of the kept columns. -/
def sheet_headers (values : List Row) : List String :=
  "#" :: (List.range (lastCol values)).map (fun i => colLetter (i + 1))

/-- `[[str(i)] + r for i, r in enumerate(values, start=i0)]`. -/
def load_rows_from (i0 : Nat) : List Row → List Row
  | [] => []
  | r :: rs => (pyStr i0 :: r) :: load_rows_from (i0 + 1) rs

/-- `rows_all` as built by `load_sheet` from the (already trimmed) cell
values: each row prefixed with its 1-based position rendered in decimal. -/
def load_rows (values : List Row) : List Row := load_rows_from 1 values

/-- The synthetic row-number cell of a row (column 0). -/
def rowNum (r : Row) : String := r.headD ""

/-! ### Filtering (source `apply_filter`, lines 429-437) -/

/-- `"\t".join(r)` on the cells of a row, as a character list. -/
def joinTab : List String → List Char
  | [] => []
  | [s] => s.data
  | s :: rest => s.data ++ '\t' :: joinTab rest

/-- Python `needle in hay` substring containment. -/
def pyContains (needle hay : List Char) : Bool := decide (needle <:+: hay)

/-- `apply_filter`: the query is stripped and lower-cased; a blank query
passes `rows_all` through unchanged, otherwise a row is kept iff the
query occurs in the lower-cased tab-joined row text. -/
def apply_filter (q : String) (rows_all : List Row) : List Row :=
  let q' := lowerL (pyStrip q.data)
  if q'.isEmpty then rows_all
  else rows_all.filter (fun r => pyContains q' (lowerL (joinTab r)))

/-! ### Sorting (source `sort_by_column`, lines 395-422) -/

/-- Sort key for the row-number column: `int(r[0])`, any failure
(including a missing cell) falling back to 0. -/
def sort_key0 (r : Row) : Int :=
  match r with
  | [] => 0
  | s :: _ => parsePyInt s

/-- Sort key for a data column: `(r[col] or "").lower()`, any failure
(an out-of-range index) falling back to the empty string.  The key is
kept as a character list; Python compares strings code point by code
point, which is exactly the lexicographic order on `List Char`. -/
def sort_keyCol (ci : Nat) (r : Row) : List Char := lowerL (r.getD ci "").data

/-- One sorting pass of `sort_by_column`: a stable sort by the column's
key, ascending or descending (`reverse=not asc`).  Python's `list.sort`
is a stable sort, and a stable descending sort equals a stable sort under
the reversed comparison, which is how it is modelled here. -/
def sort_by_column (ci : Nat) (asc : Bool) (rows : List Row) : List Row :=
  if ci = 0 then
    if asc then rows.insertionSort (fun a b => sort_key0 a ≤ sort_key0 b)
    else rows.insertionSort (fun a b => sort_key0 b ≤ sort_key0 a)
  else
    if asc then rows.insertionSort (fun a b => sort_keyCol ci a ≤ sort_keyCol ci b)
    else rows.insertionSort (fun a b => sort_keyCol ci b ≤ sort_keyCol ci a)

/-- Insert-or-replace into an association list, keeping the original
position of an existing key (Python `dict` assignment semantics). -/
def dictInsert {κ ν : Type} [BEq κ] : List (κ × ν) → κ → ν → List (κ × ν)
  | [], k, v => [(k, v)]
  | (k', v') :: rest, k, v =>
    if k' == k then (k, v) :: rest else (k', v') :: dictInsert rest k v

/-- A header click: read the remembered direction for the column
(default ascending), store the toggled direction for the next click, and
sort the rows in the remembered direction. -/
def sort_click (st : List (Nat × Bool)) (ci : Nat) (rows : List Row) :
    List (Nat × Bool) × List Row :=
  let asc := (st.lookup ci).getD true
  (dictInsert st ci (!asc), sort_by_column ci asc rows)

/-- The two rows would compare equal under the sort key `sort_by_column`
uses for column `ci`. -/
def sortKeyEq (ci : Nat) (a b : Row) : Prop :=
  if ci = 0 then sort_key0 a = sort_key0 b else sort_keyCol ci a = sort_keyCol ci b

instance (ci : Nat) (a b : Row) : Decidable (sortKeyEq ci a b) := by
  unfold sortKeyEq; split <;> infer_instance

/-! ### Engine registry and search URLs (source lines 77-122, 566-569) -/

/-- The `{query}` placeholder token, as a character list. -/
def qpat : List Char := "{query}".data

/-- `DEFAULT_ENGINES` from the source, in insertion order. -/
def DEFAULT_ENGINES : List (String × String) :=
  [("Google", "https://www.google.com/search?q={query}"),
   ("Bing", "https://www.bing.com/search?q={query}"),
   ("DuckDuckGo", "https://duckduckgo.com/?q={query}"),
   ("Perplexity", "https://www.perplexity.ai/search?q={query}")]

/-- `load_engines`: scan the config sections in order, keep only entries
whose URL contains the placeholder (`dict` assignment semantics for
duplicate names), and fall back to `DEFAULT_ENGINES` when nothing valid
remains. -/
def load_engines (sections : List (String × String)) : List (String × String) :=
  let es := sections.foldl
    (fun d p => if pyContains qpat p.2.data then dictInsert d p.1 p.2 else d) []
  if es.isEmpty then DEFAULT_ENGINES else es

/-- UTF-8 encoding of a character, as byte values. -/
def utf8Bytes (c : Char) : List Nat :=
  let n := c.toNat
  if n < 0x80 then [n]
  else if n < 0x800 then [0xC0 + n / 0x40, 0x80 + n % 0x40]
  else if n < 0x10000 then
    [0xE0 + n / 0x1000, 0x80 + (n / 0x40) % 0x40, 0x80 + n % 0x40]
  else
    [0xF0 + n / 0x40000, 0x80 + (n / 0x1000) % 0x40,
     0x80 + (n / 0x40) % 0x40, 0x80 + n % 0x40]

/-- The byte values `urllib.parse.quote` never escapes
(`ALWAYS_SAFE` restricted to `safe=""`): ASCII letters, digits, and
`_ . - ~`. -/
def isAlwaysSafe (b : Nat) : Bool :=
  (65 ≤ b && b ≤ 90) || (97 ≤ b && b ≤ 122) || (48 ≤ b && b ≤ 57) ||
  b = 95 || b = 46 || b = 45 || b = 126

/-- Upper-case hexadecimal digit of a value below 16. -/
def hexDigit (n : Nat) : Char :=
  if n < 10 then Char.ofNat (48 + n) else Char.ofNat (55 + n)

/-- Percent-encoding of one byte: kept literally when always-safe,
otherwise `%XX`. -/
def quoteByte (b : Nat) : List Char :=
  if isAlwaysSafe b then [Char.ofNat b]
  else ['%', hexDigit (b / 16), hexDigit (b % 16)]

/-- Character-level counterpart of `isAlwaysSafe`: the URL-unreserved
characters, the only ones `pyQuote` may emit unescaped. -/
def unreservedChar (c : Char) : Bool :=
  ('A' ≤ c && c ≤ 'Z') || ('a' ≤ c && c ≤ 'z') || ('0' ≤ c && c ≤ '9') ||
  c = '_' || c = '.' || c = '-' || c = '~'

/-- Upper-case hexadecimal digit characters. -/
def isHexUpper (c : Char) : Bool :=
  ('0' ≤ c && c ≤ '9') || ('A' ≤ c && c ≤ 'F')

/-- `urllib.parse.quote(query, safe="")`: UTF-8 encode, then
percent-encode every byte that is not always-safe. -/
def pyQuote (s : String) : String :=
  String.mk ((s.data.flatMap utf8Bytes).flatMap quoteByte)

/-- Left-to-right, non-overlapping replacement of the 7-character
placeholder `{query}` by `rep` (Python `str.replace`). -/
def substQuery (rep : List Char) : List Char → List Char
  | c1 :: c2 :: c3 :: c4 :: c5 :: c6 :: c7 :: rest =>
    if [c1, c2, c3, c4, c5, c6, c7] = qpat then rep ++ substQuery rep rest
    else c1 :: substQuery rep (c2 :: c3 :: c4 :: c5 :: c6 :: c7 :: rest)
  | c :: cs => c :: substQuery rep cs
  | [] => []

/-- The template `DEFAULT_ENGINES["Google"]` used as fallback by
`_make_search_url`. -/
def googleTemplate : String := "https://www.google.com/search?q={query}"

/-- `_make_search_url`: look the engine up in the registry (falling back
to the Google default template), percent-encode the query, and
substitute it for the placeholder. -/
def make_search_url (engines : List (String × String))
    (engine_name query : String) : String :=
  let tpl := (engines.lookup engine_name).getD googleTemplate
  String.mk (substQuery (pyQuote query).data tpl.data)

/-! ### Selected-cell access (source lines 446-456, 652-658) -/

/-- `_get_selected_cell_text_raw`: with no selection the empty string;
otherwise read the right-click column reference (defaulting to 1 when
none was chosen) and return that cell, or the empty string when the
index is out of range. -/
def get_selected_cell_text_raw (vals : List String) (rc : Option Int) : String :=
  if vals.isEmpty then "" else
  let ci := rc.getD 1
  if 0 ≤ ci ∧ ci < vals.length then vals.getD ci.toNat "" else ""

/-- `_get_selected_cell_text`: the normalized selected-cell text (used by
the search actions and the status-bar preview). -/
def get_selected_cell_text (vals : List String) (rc : Option Int) : String :=
  normalize_query (get_selected_cell_text_raw vals rc)

/-! ### Viewer state and `load_sheet` (source lines 160-182, 323-356) -/

/-- The mutable viewer state relevant to the claims: the data model,
filter text, per-column sort-direction memory, the right-click column
reference, the row selection held by the tree widget, and the highlight
overlay visibility. -/
structure AppState where
  headers : List String
  rows_all : List Row
  rows_view : List Row
  filter_text : String
  sort_state : List (Nat × Bool)
  rc_col_index : Option Int
  selection : Option Row
  hl_visible : Bool

/-- `load_sheet` taking the sheet's raw cell values: trim trailing
all-empty columns, build headers, number the rows, reset
`rows_view = rows_all`, clear the filter text and the sort state.
Re-rendering deletes every tree item (clearing the row selection) and
`hide_cell_highlight()` hides the overlay.  The source never assigns
`_rc_col_index` here, so the column reference is carried over. -/
def load_sheet (st : AppState) (values : List Row) : AppState :=
  let L := lastCol values
  let trimmed := values.map (fun r => r.take L)
  let ra := load_rows trimmed
  { st with
    headers := sheet_headers values
    rows_all := ra
    rows_view := ra
    filter_text := ""
    sort_state := []
    selection := none
    hl_visible := false }

/-! ## Helper lemmas -/

theorem apply_filter_sublist (q : String) (rows : List Row) :
    List.Sublist (apply_filter q rows) rows := by
  by_cases h : (lowerL (pyStrip q.data)).isEmpty
  · simp only [apply_filter, h, if_true]
    exact List.Sublist.refl rows
  · simp only [apply_filter, h, if_false]
    exact List.filter_sublist rows

theorem sort_by_column_perm (ci : Nat) (asc : Bool) (rows : List Row) :
    List.Perm (sort_by_column ci asc rows) rows := by
  unfold sort_by_column
  split <;> split <;> exact List.perm_insertionSort _ rows

theorem dictInsert_mem {κ ν : Type} [BEq κ] (d : List (κ × ν)) (k : κ) (v : ν)
    (p : κ × ν) (hp : p ∈ dictInsert d k v) : p ∈ d ∨ p = (k, v) := by
  induction d with
  | nil => simpa [dictInsert] using hp
  | cons hd tl ih =>
    unfold dictInsert at hp
    split at hp
    · rcases List.mem_cons.mp hp with h | h
      · exact Or.inr h
      · exact Or.inl (List.mem_cons_of_mem _ h)
    · rcases List.mem_cons.mp hp with h | h
      · exact Or.inl (h ▸ List.mem_cons_self _ _)
      · rcases ih h with h | h
        · exact Or.inl (List.mem_cons_of_mem _ h)
        · exact Or.inr h

theorem load_engines_foldl_inv (sections : List (String × String)) :
    ∀ d : List (String × String), (∀ p ∈ d, pyContains qpat p.2.data = true) →
      ∀ p ∈ sections.foldl
        (fun d p => if pyContains qpat p.2.data then dictInsert d p.1 p.2 else d) d,
        pyContains qpat p.2.data = true := by
  induction sections with
  | nil => intro d hd p hp; exact hd p hp
  | cons hd tl ih =>
    intro d hdinv p hp
    simp only [List.foldl_cons] at hp
    refine ih _ ?_ p hp
    intro p' hp'
    split at hp'
    · rcases dictInsert_mem d hd.1 hd.2 p' hp' with h | h
      · exact hdinv p' h
      · subst h; assumption
    · exact hdinv p' hp'

/-! ## C10: default column reference -/

/-- C10: when no right-click column reference has been chosen, the raw
selected-cell accessor (used by search, copy, full-text display and the
status preview) reads column index 1 — the first data column after the
row-number column — returning the empty string when that index is out of
range for the row; the normalized accessor is its `normalize_query`. -/
theorem C10_default_cell_column (vals : List String) :
    get_selected_cell_text_raw vals none = vals.getD 1 "" ∧
    get_selected_cell_text vals none = normalize_query (vals.getD 1 "") := by
  have h : get_selected_cell_text_raw vals none = vals.getD 1 "" := by
    unfold get_selected_cell_text_raw
    match vals with
    | [] => simp
    | [a] => simp
    | a :: b :: rest => simp [List.isEmpty_cons, Option.getD]
  exact ⟨h, by unfold get_selected_cell_text; rw [h]⟩

/-! ## C8: engine registry loading -/

/-- C8: `load_engines` silently drops every section whose URL template
lacks the placeholder (such an entry is never in the result), every
surviving entry contains the placeholder, and the result is never empty:
when no valid entry remains, the non-empty built-in `DEFAULT_ENGINES`
registry is substituted. -/
theorem C8_load_engines_resilient (sections : List (String × String)) :
    load_engines sections ≠ [] ∧
    (∀ p ∈ load_engines sections, pyContains qpat p.2.data = true) ∧
    (∀ n u : String, pyContains qpat u.data = false →
      (n, u) ∉ load_engines sections) ∧
    DEFAULT_ENGINES ≠ [] := by
  by_cases hE : (sections.foldl
      (fun d p => if pyContains qpat p.2.data then dictInsert d p.1 p.2 else d)
      []).isEmpty
  case pos =>
    have hload : load_engines sections = DEFAULT_ENGINES := by
      simp only [load_engines]
      rw [if_pos hE]
    refine ⟨by rw [hload]; decide, ?_, ?_, by decide⟩
    · rw [hload]
      decide
    · intro n u hu hmem
      rw [hload] at hmem
      have hq : pyContains qpat u.data = true :=
        (by decide : ∀ p ∈ DEFAULT_ENGINES, pyContains qpat p.2.data = true) (n, u) hmem
      rw [hu] at hq
      cases hq
  case neg =>
    have hload : load_engines sections = sections.foldl
        (fun d p => if pyContains qpat p.2.data then dictInsert d p.1 p.2 else d)
        [] := by
      simp only [load_engines]
      rw [if_neg hE]
    have hall : ∀ p ∈ load_engines sections, pyContains qpat p.2.data = true := by
      rw [hload]
      exact load_engines_foldl_inv sections [] (by intro p hp; cases hp)
    refine ⟨?_, hall, ?_, by decide⟩
    · rw [hload]
      intro he
      rw [he] at hE
      exact hE rfl
    · intro n u hu hmem
      have := hall (n, u) hmem
      rw [hu] at this
      cases this

/-- Witness for C8 at a concrete section list containing one malformed
entry. -/
theorem C8_load_engines_resilient_witness :
    pyContains qpat ("https://www.google.com/search?q={query}" : String).data = true ∧
    ("X", "no-placeholder") ∉ load_engines [("X", "no-placeholder")] := by
  refine ⟨?_, ?_⟩
  · exact (C8_load_engines_resilient [("X", "no-placeholder")]).2.1
      ("Google", "https://www.google.com/search?q={query}") (by decide)
  · exact (C8_load_engines_resilient [("X", "no-placeholder")]).2.2.1
      "X" "no-placeholder" (by decide)

/-! ## C4: what a sheet (re)load resets -/

/-- C4 (amended): loading a sheet resets `rows_view` to `rows_all`,
clears the per-column sort state and the filter text, clears the row
selection and hides the highlight overlay — but the right-click column
reference `_rc_col_index` is NOT cleared: it persists unchanged across
the reload. -/
theorem C4_load_sheet_resets (st : AppState) (values : List Row) :
    (load_sheet st values).rows_view = (load_sheet st values).rows_all ∧
    (load_sheet st values).sort_state = [] ∧
    (load_sheet st values).filter_text = "" ∧
    (load_sheet st values).selection = none ∧
    (load_sheet st values).hl_visible = false ∧
    (load_sheet st values).rc_col_index = st.rc_col_index :=
  ⟨rfl, rfl, rfl, rfl, rfl, rfl⟩

/-- Counterexample to C4 as stated: a column reference chosen before a
sheet load (column 2) is still present after the load, so the claim that
no column reference persists across a sheet reload is false. -/
theorem C4_column_reference_persists :
    (load_sheet
      { headers := ["#", "A"], rows_all := [["1", "x"]], rows_view := [["1", "x"]],
        filter_text := "x", sort_state := [(1, false)], rc_col_index := some 2,
        selection := some ["1", "x"], hl_visible := true }
      [["a"], ["b"]]).rc_col_index = some 2 ∧ (some 2 : Option Int) ≠ none :=
  ⟨rfl, by decide⟩

/-! ## C2: filter semantics -/

/-- C2: a query that is empty or blank after stripping passes `rows_all`
through unchanged; for a non-blank query a row is kept iff the
lower-cased stripped query occurs as a substring of the lower-cased
tab-joined row; and the filtered view preserves the `rows_all` order
(it is a sublist). -/
theorem C2_apply_filter_semantics (rows : List Row) (q : String) :
    (pyStrip q.data = [] → apply_filter q rows = rows) ∧
    (pyStrip q.data ≠ [] → ∀ r : Row,
      r ∈ apply_filter q rows ↔
        r ∈ rows ∧ pyContains (lowerL (pyStrip q.data)) (lowerL (joinTab r)) = true) ∧
    List.Sublist (apply_filter q rows) rows := by
  refine ⟨?_, ?_, apply_filter_sublist q rows⟩
  · intro h
    unfold apply_filter
    simp [lowerL, h]
  · intro h r
    unfold apply_filter
    rw [if_neg]
    · exact List.mem_filter
    · simp [lowerL, h]

/-- Witness for C2: a blank query passes rows through; the query
`"App"` keeps the row `["1", "Apple"]` by the substring test. -/
theorem C2_apply_filter_semantics_witness :
    apply_filter "  " [["1", "Apple"], ["2", "banana"]] = [["1", "Apple"], ["2", "banana"]] ∧
    (["1", "Apple"] ∈ apply_filter "App" [["1", "Apple"], ["2", "banana"]] ↔
      ["1", "Apple"] ∈ [["1", "Apple"], ["2", "banana"]] ∧
      pyContains (lowerL (pyStrip ("App" : String).data))
        (lowerL (joinTab ["1", "Apple"])) = true) :=
  ⟨(C2_apply_filter_semantics [["1", "Apple"], ["2", "banana"]] "  ").1 (by decide),
   (C2_apply_filter_semantics [["1", "Apple"], ["2", "banana"]] "App").2.1 (by decide)
     ["1", "Apple"]⟩

/-! ## C9: the filter sees the row-number column -/

theorem load_rows_from_shape (vs : List Row) :
    ∀ (i0 : Nat) (r : Row), r ∈ load_rows_from i0 vs →
      ∃ (i : Nat) (orig : Row), r = pyStr i :: orig := by
  induction vs with
  | nil => intro i0 r hr; cases hr
  | cons v tl ih =>
    intro i0 r hr
    rcases List.mem_cons.mp hr with h | h
    · exact ⟨i0, v, h⟩
    · exact ih (i0 + 1) r h

theorem infix_append_right {l a b : List Char} (h : l <:+: a) : l <:+: a ++ b := by
  rcases h with ⟨x, y, hxy⟩
  exact ⟨x, y ++ b, by rw [← hxy]; simp⟩

/-- C9: the tab-joined text `apply_filter` scans starts with the
synthetic row-number column, so any row whose row-number cell contains
the (stripped, lower-cased) non-blank query is kept in the view — a
purely numeric query can match a row by its row number alone. -/
theorem C9_filter_matches_row_number (values : List Row) (q : String) (r : Row)
    (hr : r ∈ load_rows values) (hq : pyStrip q.data ≠ [])
    (hmatch : lowerL (pyStrip q.data) <:+: lowerL (rowNum r).data) :
    r ∈ apply_filter q (load_rows values) := by
  obtain ⟨i, orig, hshape⟩ := load_rows_from_shape values 1 r hr
  have hjoin : lowerL (pyStrip q.data) <:+: lowerL (joinTab r) := by
    subst hshape
    match orig with
    | [] =>
      simpa [joinTab, rowNum] using hmatch
    | o :: os =>
      have hj : lowerL (joinTab (pyStr i :: o :: os))
          = lowerL ((pyStr i).data) ++ lowerL ('\t' :: joinTab (o :: os)) := by
        rw [show joinTab (pyStr i :: o :: os)
          = (pyStr i).data ++ '\t' :: joinTab (o :: os) from rfl]
        simp [lowerL]
      rw [hj]
      exact infix_append_right (by simpa [rowNum, lowerL] using hmatch)
  unfold apply_filter
  rw [if_neg]
  · exact List.mem_filter.mpr ⟨hr, by simpa [pyContains] using hjoin⟩
  · simp [lowerL, hq]

/-- Witness for C9: the query `"3"` occurs only in the row-number cell
of the third loaded row, and that row is kept by the filter. -/
theorem C9_filter_matches_row_number_witness :
    ["3", "z"] ∈ apply_filter "3" (load_rows [["x"], ["y"], ["z"]]) :=
  C9_filter_matches_row_number [["x"], ["y"], ["z"]] "3" ["3", "z"]
    (by decide) (by decide) (by decide)

/-! ## C1: row numbering and its preservation -/

theorem strVal_append_digit (l : List Char) (c : Char) :
    strVal (l ++ [c]) = strVal l * 10 + (c.toNat - 48) := by
  simp [strVal, List.foldl_append]

theorem digitChar_toNat (m : Nat) (hm : m < 10) :
    (Char.ofNat (48 + m)).toNat = 48 + m := by
  interval_cases m <;> decide

theorem pyStrAux_strVal : ∀ (fuel n : Nat), n ≤ fuel → strVal (pyStrAux fuel n) = n := by
  intro fuel
  induction fuel with
  | zero => intro n hn; interval_cases n; rfl
  | succ f ih =>
    intro n hn
    match n with
    | 0 => rfl
    | m + 1 =>
      have hdiv : (m + 1) / 10 ≤ f := by
        have := Nat.div_lt_self (Nat.succ_pos m) (by omega : 1 < 10)
        omega
      rw [pyStrAux, strVal_append_digit, ih _ hdiv,
        digitChar_toNat _ (Nat.mod_lt _ (by omega))]
      omega

theorem pyStr_inj_pos {m n : Nat} (hm : 1 ≤ m) (hn : 1 ≤ n)
    (h : pyStr m = pyStr n) : m = n := by
  unfold pyStr at h
  rw [if_neg (by omega), if_neg (by omega)] at h
  have hdata : pyStrAux m m = pyStrAux n n := congrArg String.data h
  have := pyStrAux_strVal m m le_rfl
  rw [hdata, pyStrAux_strVal n n le_rfl] at this
  omega

theorem load_rows_from_map_rowNum (vs : List Row) :
    ∀ i0 : Nat, (load_rows_from i0 vs).map rowNum
      = (List.range vs.length).map (fun j => pyStr (i0 + j)) := by
  induction vs with
  | nil => intro i0; rfl
  | cons v tl ih =>
    intro i0
    rw [load_rows_from, List.map_cons, List.length_cons, List.range_succ_eq_map,
      List.map_cons, ih (i0 + 1), List.map_map]
    refine congrArg₂ _ (by simp [rowNum]) ?_
    refine List.map_congr_left fun j _ => ?_
    simp only [Function.comp_apply]
    exact congrArg pyStr (by omega)

/-- C1: the synthetic row-number column of `rows_all` lists the decimal
1-based positions of the rows (hence is unique / duplicate-free), and
every view obtained by filtering then sorting is a permutation of a
sublist of `rows_all`, whose rows — row-number cells included — are the
unchanged `rows_all` rows (rows are never renumbered). -/
theorem C1_row_numbers_stable (values : List Row) (q : String) (ci : Nat) (asc : Bool) :
    (load_rows values).map rowNum
      = (List.range values.length).map (fun i => pyStr (1 + i)) ∧
    ((load_rows values).map rowNum).Nodup ∧
    ∃ sub : List Row, List.Sublist sub (load_rows values) ∧
      List.Perm (sort_by_column ci asc (apply_filter q (load_rows values))) sub := by
  have hmap : (load_rows values).map rowNum
      = (List.range values.length).map (fun j => pyStr (1 + j)) :=
    load_rows_from_map_rowNum values 1
  refine ⟨hmap, ?_, apply_filter q (load_rows values),
    apply_filter_sublist q (load_rows values), sort_by_column_perm ci asc _⟩
  rw [hmap]
  refine List.Nodup.map_on ?_ (List.nodup_range _)
  intro x hx y hy hxy
  have := pyStr_inj_pos (by omega) (by omega) hxy
  omega

/-! ## C5: trailing-empty-column trimming -/

theorem trimLoop_empty_above (values : List Row) :
    ∀ n ci : Nat, trimLoop values n ≤ ci → ci < n → col_empty values ci = true := by
  intro n
  induction n with
  | zero => intro ci _ h; omega
  | succ m ih =>
    intro ci h1 h2
    rw [trimLoop] at h1
    by_cases hc : col_empty values m
    · rw [if_pos hc] at h1
      rcases Nat.lt_succ_iff_lt_or_eq.mp h2 with h | h
      · exact ih ci h1 h
      · exact h ▸ hc
    · rw [if_neg hc] at h1
      omega

theorem trimLoop_stops_nonempty (values : List Row) :
    ∀ n : Nat, trimLoop values n = 0 ∨
      col_empty values (trimLoop values n - 1) = false := by
  intro n
  induction n with
  | zero => exact Or.inl rfl
  | succ m ih =>
    rw [trimLoop]
    by_cases hc : col_empty values m
    · rw [if_pos hc]; exact ih
    · rw [if_neg hc]
      exact Or.inr (by simpa using hc)

theorem length_le_maxCols (values : List Row) :
    ∀ r ∈ values, r.length ≤ maxCols values := by
  induction values with
  | nil => intro r hr; cases hr
  | cons v tl ih =>
    intro r hr
    rcases List.mem_cons.mp hr with h | h
    · subst h; simp [maxCols]
    · calc r.length ≤ maxCols tl := ih r h
        _ ≤ maxCols (v :: tl) := by simp [maxCols]

theorem col_empty_beyond (values : List Row) (ci : Nat)
    (h : maxCols values ≤ ci) : col_empty values ci = true := by
  unfold col_empty
  rw [List.all_eq_true]
  intro r hr
  have := length_le_maxCols values r hr
  rw [List.getD_eq_default _ _ (by omega)]
  rfl

theorem trimLoop_le (values : List Row) : ∀ n : Nat, trimLoop values n ≤ n := by
  intro n
  induction n with
  | zero => exact le_rfl
  | succ m ih =>
    rw [trimLoop]
    by_cases hc : col_empty values m
    · rw [if_pos hc]; omega
    · rw [if_neg hc]

/-- C5: the kept column count `lastCol` drops exactly the trailing
columns that are empty (or absent) in every row: every column index at
or beyond it is empty in every row, and (unless nothing is kept) the
scan stopped at a non-empty column; the headers are the literal `"#"`
label followed by the derived letter label of each kept column; and the
concrete sheet whose columns D and E are empty everywhere while C holds
a non-empty cell yields headers ending at C. -/
theorem C5_trailing_trim (values : List Row) :
    (∀ ci : Nat, lastCol values ≤ ci → col_empty values ci = true) ∧
    (lastCol values = 0 ∨ col_empty values (lastCol values - 1) = false) ∧
    sheet_headers values
      = "#" :: (List.range (lastCol values)).map (fun i => colLetter (i + 1)) ∧
    sheet_headers [["a", "", "c", "", ""], ["", "b", "", "", ""]]
      = ["#", "A", "B", "C"] := by
  refine ⟨?_, trimLoop_stops_nonempty values _, rfl, by decide⟩
  intro ci hci
  by_cases h : ci < maxCols values
  · exact trimLoop_empty_above values (maxCols values) ci hci h
  · exact col_empty_beyond values ci (by omega)

/-- Witness for C5 at the two-row sheet with columns D and E empty:
column indices 3 and 4 are reported empty-everywhere. -/
theorem C5_trailing_trim_witness :
    col_empty [["a", "", "c", "", ""], ["", "b", "", "", ""]] 3 = true ∧
    col_empty [["a", "", "c", "", ""], ["", "b", "", "", ""]] 4 = true :=
  ⟨(C5_trailing_trim [["a", "", "c", "", ""], ["", "b", "", "", ""]]).1 3 (by decide),
   (C5_trailing_trim [["a", "", "c", "", ""], ["", "b", "", "", ""]]).1 4 (by decide)⟩

/-! ## C7: search-URL building -/

theorem char_toNat_lt (c : Char) : c.toNat < 1114112 := by
  have h : c.val.toNat < 55296 ∨ (57343 < c.val.toNat ∧ c.val.toNat < 1114112) :=
    c.valid
  have he : c.toNat = c.val.toNat := rfl
  omega

theorem safe_lt_128 (b : Nat) (h : isAlwaysSafe b = true) : b < 128 := by
  unfold isAlwaysSafe at h
  simp only [Bool.or_eq_true, Bool.and_eq_true, decide_eq_true_eq] at h
  omega

theorem safe_char_unreserved :
    ∀ b < 128, isAlwaysSafe b = true → unreservedChar (Char.ofNat b) = true := by
  decide

theorem hexDigit_isHexUpper : ∀ m < 16, isHexUpper (hexDigit m) = true := by
  decide

theorem utf8Bytes_lt_256 (c : Char) : ∀ b ∈ utf8Bytes c, b < 256 := by
  intro b hb
  have hc := char_toNat_lt c
  simp only [utf8Bytes] at hb
  by_cases h1 : c.toNat < 128
  · rw [if_pos h1] at hb
    simp only [List.mem_singleton] at hb
    omega
  · rw [if_neg h1] at hb
    by_cases h2 : c.toNat < 2048
    · rw [if_pos h2] at hb
      simp only [List.mem_cons, List.not_mem_nil, or_false] at hb
      rcases hb with rfl | rfl <;> omega
    · rw [if_neg h2] at hb
      by_cases h3 : c.toNat < 65536
      · rw [if_pos h3] at hb
        simp only [List.mem_cons, List.not_mem_nil, or_false] at hb
        rcases hb with rfl | rfl | rfl <;> omega
      · rw [if_neg h3] at hb
        simp only [List.mem_cons, List.not_mem_nil, or_false] at hb
        rcases hb with rfl | rfl | rfl | rfl <;> omega

/-- C7: the URL builder percent-encodes the query so that only
unreserved characters, `%`, and upper-case hex digits ever appear in the
encoding (every reserved character is escaped); an engine name absent
from the registry falls back to the fixed default Google template; and
on the Google template the query `"hello world"` yields
`https://www.google.com/search?q=hello%20world`. -/
theorem C7_make_search_url (registry : List (String × String)) (name q : String) :
    (registry.lookup name = none →
      make_search_url registry name q
        = String.mk (substQuery (pyQuote q).data googleTemplate.data)) ∧
    (∀ c ∈ (pyQuote q).data,
      unreservedChar c = true ∨ c = '%' ∨ isHexUpper c = true) ∧
    make_search_url DEFAULT_ENGINES "Google" "hello world"
      = "https://www.google.com/search?q=hello%20world" := by
  refine ⟨?_, ?_, by decide⟩
  · intro h
    simp only [make_search_url, h, Option.getD_none]
  · intro c hc
    have hc' : c ∈ (q.data.flatMap utf8Bytes).flatMap quoteByte := hc
    obtain ⟨b, hb, hcb⟩ := List.mem_flatMap.mp hc'
    obtain ⟨ch, _, hbch⟩ := List.mem_flatMap.mp hb
    have hb256 : b < 256 := utf8Bytes_lt_256 ch b hbch
    unfold quoteByte at hcb
    by_cases hsafe : isAlwaysSafe b
    · rw [if_pos hsafe] at hcb
      rcases List.mem_singleton.mp hcb with rfl
      exact Or.inl (safe_char_unreserved b (safe_lt_128 b hsafe) hsafe)
    · rw [if_neg hsafe] at hcb
      rcases List.mem_cons.mp hcb with rfl | hcb
      · exact Or.inr (Or.inl rfl)
      rcases List.mem_cons.mp hcb with rfl | hcb
      · exact Or.inr (Or.inr (hexDigit_isHexUpper _ (by omega)))
      rcases List.mem_singleton.mp hcb with rfl
      exact Or.inr (Or.inr (hexDigit_isHexUpper _ (Nat.mod_lt _ (by omega))))

/-- Witness for C7: with an empty registry the Google default template
is used, and the letter `a` of the encoded query is unreserved. -/
theorem C7_make_search_url_witness :
    make_search_url [] "X" "a"
      = String.mk (substQuery (pyQuote "a").data googleTemplate.data) ∧
    (unreservedChar 'a' = true ∨ 'a' = '%' ∨ isHexUpper 'a' = true) :=
  ⟨(C7_make_search_url [] "X" "a").1 rfl,
   (C7_make_search_url [] "X" "a").2.1 'a' (by decide)⟩

/-! ## C3: sort stability and double-click reversal -/

theorem insertionSort_asc_sorted {α β : Type} [LinearOrder β] (k : α → β) (l : List α) :
    (l.insertionSort fun a b => k a ≤ k b).Pairwise (fun a b => k a ≤ k b) := by
  haveI : IsTotal α (fun a b => k a ≤ k b) := ⟨fun a b => le_total (k a) (k b)⟩
  haveI : IsTrans α (fun a b => k a ≤ k b) := ⟨fun a b c h1 h2 => le_trans h1 h2⟩
  exact List.sorted_insertionSort _ l

theorem insertionSort_desc_reverse {α β : Type} [LinearOrder β] (k : α → β) (l : List α)
    (hnd : l.Pairwise fun a b => k a ≠ k b)
    (hs : l.Pairwise fun a b => k a ≤ k b) :
    l.insertionSort (fun a b => k b ≤ k a) = l.reverse := by
  haveI : IsTotal α (fun a b => k b ≤ k a) := ⟨fun a b => le_total (k b) (k a)⟩
  haveI : IsTrans α (fun a b => k b ≤ k a) := ⟨fun a b c h1 h2 => le_trans h2 h1⟩
  haveI : IsAntisymm α (fun a b : α => k b < k a) :=
    ⟨fun a b h1 h2 => absurd h1 (lt_asymm h2)⟩
  have hperm : List.Perm (l.insertionSort fun a b => k b ≤ k a) l :=
    List.perm_insertionSort _ l
  have hd_sorted : (l.insertionSort fun a b => k b ≤ k a).Pairwise
      (fun a b => k b ≤ k a) := List.sorted_insertionSort _ l
  have hd_nd : (l.insertionSort fun a b => k b ≤ k a).Pairwise
      (fun a b => k a ≠ k b) :=
    (List.Perm.pairwise_iff (fun h e => h e.symm) hperm).mpr hnd
  have hd_strict : (l.insertionSort fun a b => k b ≤ k a).Pairwise
      (fun a b => k b < k a) :=
    (hd_sorted.and hd_nd).imp fun h => lt_of_le_of_ne h.1 fun e => h.2 e.symm
  have hrev_strict : l.reverse.Pairwise (fun a b => k b < k a) :=
    List.pairwise_reverse.mpr ((hs.and hnd).imp fun h => lt_of_le_of_ne h.1 h.2)
  exact List.eq_of_perm_of_sorted (hperm.trans (List.reverse_perm l).symm)
    hd_strict hrev_strict

theorem sort_twice_reverse {α β : Type} [LinearOrder β] (k : α → β) (l : List α)
    (hnd : l.Pairwise fun a b => k a ≠ k b) :
    (l.insertionSort (fun a b => k a ≤ k b)).insertionSort (fun a b => k b ≤ k a)
      = (l.insertionSort (fun a b => k a ≤ k b)).reverse := by
  apply insertionSort_desc_reverse
  · exact (List.Perm.pairwise_iff (fun h e => h e.symm)
      (List.perm_insertionSort _ l)).mpr hnd
  · exact insertionSort_asc_sorted k l

/-- C3: `sort_by_column` is stable — two rows with equal sort keys keep
their relative order, in either direction — and clicking the same column
twice sorts ascending then descending, the second (descending) pass
being the total reversal of the first (ascending) pass whenever the
column has no tied keys. -/
theorem C3_sort_stable_reversible (rows : List Row) (ci : Nat) :
    (∀ (asc : Bool) (a b : Row), sortKeyEq ci a b → List.Sublist [a, b] rows →
      List.Sublist [a, b] (sort_by_column ci asc rows)) ∧
    ((rows.Pairwise fun a b => ¬ sortKeyEq ci a b) →
      (sort_click [] ci rows).2 = sort_by_column ci true rows ∧
      (sort_click (sort_click [] ci rows).1 ci (sort_click [] ci rows).2).2
        = ((sort_click [] ci rows).2).reverse) := by
  constructor
  · intro asc a b hk hab
    by_cases hci : ci = 0
    · subst hci
      have hk0 : sort_key0 a = sort_key0 b := by simpa [sortKeyEq] using hk
      cases asc
      · simp only [sort_by_column, if_pos rfl, Bool.false_eq_true, if_false]
        exact List.pair_sublist_insertionSort (le_of_eq hk0.symm) hab
      · simp only [sort_by_column, if_pos rfl, if_true]
        exact List.pair_sublist_insertionSort (le_of_eq hk0) hab
    · have hkc : sort_keyCol ci a = sort_keyCol ci b := by
        simpa [sortKeyEq, hci] using hk
      cases asc
      · simp only [sort_by_column, hci, if_false, Bool.false_eq_true]
        exact List.pair_sublist_insertionSort (le_of_eq hkc.symm) hab
      · simp only [sort_by_column, hci, if_false, if_true]
        exact List.pair_sublist_insertionSort (le_of_eq hkc) hab
  · intro hnd
    have hclick1 : sort_click [] ci rows
        = ([(ci, false)], sort_by_column ci true rows) := by
      simp [sort_click, dictInsert, List.lookup]
    rw [hclick1]
    refine ⟨rfl, ?_⟩
    have hclick2 : (sort_click [(ci, false)] ci (sort_by_column ci true rows)).2
        = sort_by_column ci false (sort_by_column ci true rows) := by
      simp [sort_click, List.lookup]
    simp only [hclick2]
    by_cases hci : ci = 0
    · subst hci
      simp only [sort_by_column, if_pos rfl, if_true, Bool.false_eq_true, if_false]
      exact sort_twice_reverse sort_key0 rows
        (hnd.imp fun h => by simpa [sortKeyEq] using h)
    · simp only [sort_by_column, hci, if_false, if_true, Bool.false_eq_true]
      exact sort_twice_reverse (sort_keyCol ci) rows
        (hnd.imp fun h => by simpa [sortKeyEq, hci] using h)

/-- Witness for C3: the rows `["2", "a"]` and `["3", "A"]` tie on column
1 (case-insensitive key) and keep their order through the ascending
sort; on a two-row sheet with distinct column-1 keys, the second click
reverses the first ascending pass. -/
theorem C3_sort_stable_reversible_witness :
    List.Sublist [["2", "a"], ["3", "A"]]
      (sort_by_column 1 true [["1", "b"], ["2", "a"], ["3", "A"]]) ∧
    ((sort_click [] 1 [["1", "b"], ["2", "a"]]).2
        = sort_by_column 1 true [["1", "b"], ["2", "a"]] ∧
      (sort_click (sort_click [] 1 [["1", "b"], ["2", "a"]]).1 1
          (sort_click [] 1 [["1", "b"], ["2", "a"]]).2).2
        = ((sort_click [] 1 [["1", "b"], ["2", "a"]]).2).reverse) :=
  ⟨(C3_sort_stable_reversible [["1", "b"], ["2", "a"], ["3", "A"]] 1).1 true
      ["2", "a"] ["3", "A"] (by decide) (by decide),
   (C3_sort_stable_reversible [["1", "b"], ["2", "a"]] 1).2 (by decide)⟩

/-! ## C6: `normalize_query` idempotence -/

theorem pySubAux_mem_ws (l : List Char) :
    ∀ (fl : Bool) (c : Char), c ∈ pySubAux fl l → isPySpace c = true → c = ' ' := by
  induction l with
  | nil => intro fl c hc _; cases hc
  | cons d ds ih =>
    intro fl c hc hw
    by_cases hd : isPySpace d
    · rw [pySubAux, if_pos hd] at hc
      cases fl with
      | true => exact ih true c hc hw
      | false =>
        rcases List.mem_cons.mp hc with rfl | hc
        · rfl
        · exact ih true c hc hw
    · rw [pySubAux, if_neg hd] at hc
      rcases List.mem_cons.mp hc with rfl | hc
      · exact absurd hw (by simpa using hd)
      · exact ih false c hc hw

theorem pySubAux_true_head (l : List Char) :
    ∀ c : Char, (pySubAux true l).head? = some c → isPySpace c = false := by
  induction l with
  | nil => intro c hc; cases hc
  | cons d ds ih =>
    intro c hc
    by_cases hd : isPySpace d
    · rw [pySubAux, if_pos hd] at hc
      exact ih c hc
    · rw [pySubAux, if_neg hd] at hc
      rw [List.head?_cons, Option.some.injEq] at hc
      subst hc
      simpa using hd

theorem pySubAux_chain (l : List Char) :
    ∀ fl : Bool, (pySubAux fl l).Chain'
      (fun a b => isPySpace a = true → isPySpace b = false) := by
  induction l with
  | nil => intro fl; exact List.chain'_nil
  | cons d ds ih =>
    intro fl
    by_cases hd : isPySpace d
    · rw [pySubAux, if_pos hd]
      cases fl with
      | true => exact ih true
      | false =>
        refine List.chain'_cons'.mpr ⟨?_, ih true⟩
        intro y hy _
        exact pySubAux_true_head ds y hy
    · rw [pySubAux, if_neg hd]
      refine List.chain'_cons'.mpr ⟨?_, ih false⟩
      intro y _ hwd
      exact absurd hwd (by simpa using hd)

theorem pySubAux_fix (l : List Char)
    (hw : ∀ c ∈ l, isPySpace c = true → c = ' ')
    (hc : l.Chain' (fun a b => isPySpace a = true → isPySpace b = false)) :
    pySubAux false l = l ∧
    ((∀ c : Char, l.head? = some c → isPySpace c = false) → pySubAux true l = l) := by
  induction l with
  | nil => exact ⟨rfl, fun _ => rfl⟩
  | cons d ds ih =>
    obtain ⟨hhead, hc'⟩ := List.chain'_cons'.mp hc
    have ihds := ih (fun c hcm => hw c (List.mem_cons_of_mem _ hcm)) hc'
    constructor
    · by_cases hd : isPySpace d
      · have hd' : d = ' ' := hw d (List.mem_cons_self _ _) hd
        rw [pySubAux, if_pos hd]
        have hds : pySubAux true ds = ds := by
          refine ihds.2 ?_
          intro c hch
          exact hhead c hch hd
        rw [show (if (false : Bool) then pySubAux true ds
            else ' ' :: pySubAux true ds) = ' ' :: pySubAux true ds from rfl,
          hds, hd']
      · rw [pySubAux, if_neg hd, ihds.1]
    · intro hhd
      by_cases hd : isPySpace d
      · exact absurd hd (by simpa using hhd d rfl)
      · rw [pySubAux, if_neg hd, ihds.1]

theorem head?_dropWhile_ws (l : List Char) :
    ∀ c : Char, (l.dropWhile isPySpace).head? = some c → isPySpace c = false := by
  induction l with
  | nil => intro c hc; cases hc
  | cons d ds ih =>
    intro c hc
    rw [List.dropWhile_cons] at hc
    by_cases hd : isPySpace d
    · rw [if_pos (by simpa using hd)] at hc
      exact ih c hc
    · rw [if_neg (by simpa using hd)] at hc
      rw [List.head?_cons, Option.some.injEq] at hc
      subst hc
      simpa using hd

theorem dropWhile_ws_eq_self (l : List Char)
    (h : ∀ c : Char, l.head? = some c → isPySpace c = false) :
    l.dropWhile isPySpace = l := by
  cases l with
  | nil => rfl
  | cons d ds =>
    rw [List.dropWhile_cons, if_neg]
    simp [h d rfl]

theorem getLast?_dropWhile_ws (l : List Char) :
    l.dropWhile isPySpace ≠ [] →
      (l.dropWhile isPySpace).getLast? = l.getLast? := by
  induction l with
  | nil => intro h; exact absurd rfl h
  | cons d ds ih =>
    intro hne
    by_cases hd : isPySpace d
    · rw [List.dropWhile_cons, if_pos (by simpa using hd)] at hne ⊢
      cases ds with
      | nil => exact absurd rfl hne
      | cons e es =>
        rw [ih hne, List.getLast?_cons_cons]
    · rw [List.dropWhile_cons, if_neg (by simpa using hd)]

theorem chain'_dropWhile {α : Type} {R : α → α → Prop} (p : α → Bool) (l : List α)
    (h : l.Chain' R) : (l.dropWhile p).Chain' R := by
  induction l with
  | nil => exact List.chain'_nil
  | cons d ds ih =>
    rw [List.dropWhile_cons]
    by_cases hd : p d
    · rw [if_pos hd]
      exact ih (List.Chain'.tail h)
    · rw [if_neg hd]
      exact h

theorem pyStrip_mem (l : List Char) (c : Char) (hc : c ∈ pyStrip l) : c ∈ l := by
  unfold pyStrip at hc
  rw [List.mem_reverse] at hc
  have h1 := (List.dropWhile_sublist isPySpace (l := (l.dropWhile isPySpace).reverse)).subset hc
  rw [List.mem_reverse] at h1
  exact (List.dropWhile_sublist isPySpace (l := l)).subset h1

theorem pyStrip_chain {R : Char → Char → Prop} (l : List Char)
    (h : l.Chain' R) : (pyStrip l).Chain' R := by
  have h1 : (l.dropWhile isPySpace).Chain' R := chain'_dropWhile _ _ h
  have h2 : ((l.dropWhile isPySpace).reverse).Chain' (flip R) :=
    List.chain'_reverse.mpr h1
  have h3 : (((l.dropWhile isPySpace).reverse).dropWhile isPySpace).Chain' (flip R) :=
    chain'_dropWhile _ _ h2
  exact List.chain'_reverse.mpr h3

theorem pyStrip_head (l : List Char) :
    ∀ c : Char, (pyStrip l).head? = some c → isPySpace c = false := by
  intro c hc
  unfold pyStrip at hc
  rw [List.head?_reverse] at hc
  have hne : (l.dropWhile isPySpace).reverse.dropWhile isPySpace ≠ [] := by
    intro he
    rw [he] at hc
    cases hc
  rw [getLast?_dropWhile_ws _ hne, List.getLast?_reverse] at hc
  exact head?_dropWhile_ws l c hc

theorem pyStrip_last (l : List Char) :
    ∀ c : Char, (pyStrip l).getLast? = some c → isPySpace c = false := by
  intro c hc
  unfold pyStrip at hc
  rw [List.getLast?_reverse] at hc
  exact head?_dropWhile_ws _ c hc

theorem pyStrip_fix (l : List Char)
    (hh : ∀ c : Char, l.head? = some c → isPySpace c = false)
    (hl : ∀ c : Char, l.getLast? = some c → isPySpace c = false) :
    pyStrip l = l := by
  unfold pyStrip
  rw [dropWhile_ws_eq_self l hh, dropWhile_ws_eq_self, List.reverse_reverse]
  intro c hc
  rw [List.head?_reverse] at hc
  exact hl c hc

/-- C6: the query normalizer is idempotent, and on the sample input it
converts CR/LF and the full-width space to ordinary spaces, collapses
the runs, and strips the ends: `normalize_query "a\r\nb　c" = "a b c"`. -/
theorem C6_normalize_query_idempotent (s : String) :
    normalize_query (normalize_query s) = normalize_query s ∧
    normalize_query "a\r\nb　c" = "a b c" := by
  refine ⟨?_, by decide⟩
  by_cases hs : s = ""
  · simp [normalize_query, hs]
  · have ht : normalize_query s = String.mk (pyStrip (pySub (s.data.map replWS))) := by
      rw [normalize_query, if_neg hs]
    rw [ht]
    by_cases ht0 : String.mk (pyStrip (pySub (s.data.map replWS))) = ""
    · rw [normalize_query, if_pos ht0, ht0]
    · rw [normalize_query, if_neg ht0]
      have hdata : (String.mk (pyStrip (pySub (s.data.map replWS)))).data
          = pyStrip (pySub (s.data.map replWS)) := rfl
      rw [hdata]
      have hwAll : ∀ c ∈ pyStrip (pySub (s.data.map replWS)),
          isPySpace c = true → c = ' ' := by
        intro c hc hw
        exact pySubAux_mem_ws _ false c (pyStrip_mem _ c hc) hw
      have hmap : (pyStrip (pySub (s.data.map replWS))).map replWS
          = pyStrip (pySub (s.data.map replWS)) := by
        have hcongr : (pyStrip (pySub (s.data.map replWS))).map replWS
            = (pyStrip (pySub (s.data.map replWS))).map id := by
          refine List.map_congr_left ?_
          intro c hc
          by_cases hw : isPySpace c
          · rw [hwAll c hc hw]; decide
          · have hne : ¬ ((c = '\r' || c = '\n' || c = '\u3000') = true) := by
              intro hmem
              simp only [Bool.or_eq_true, decide_eq_true_eq] at hmem
              rcases hmem with (rfl | rfl) | rfl <;> exact hw (by decide)
            show replWS c = c
            unfold replWS
            rw [if_neg hne]
        rw [hcongr, List.map_id]
      have hchain := pyStrip_chain (R := fun a b => isPySpace a = true → isPySpace b = false)
        (pySub (s.data.map replWS)) (pySubAux_chain _ false)
      have hsub : pySub (pyStrip (pySub (s.data.map replWS)))
          = pyStrip (pySub (s.data.map replWS)) :=
        (pySubAux_fix _ hwAll hchain).1
      have hstrip : pyStrip (pyStrip (pySub (s.data.map replWS)))
          = pyStrip (pySub (s.data.map replWS)) :=
        pyStrip_fix _ (pyStrip_head _) (pyStrip_last _)
      rw [hmap, hsub, hstrip]

end AISearchViewerLite
